import Mathlib

/-!
Shallow embedding of the video-assembly engine (`src/assembly.py`) of the
YT-FaceLess-Zero-Cost-Pipeline repository, together with proofs of the
spec claims about scene-duration allocation, the Ken Burns crop geometry,
caption scheduling and the greedy caption word wrap.

Numeric modelling: Python floats are modelled as exact rationals (ℚ);
Python `int(x)` (truncation toward zero) is `pytrunc`; Python `//` (floor
division) on integers is `Int.fdiv`; Python strings are modelled as
`List Char` where word splitting matters and as `String` elsewhere.
-/

namespace Assembly

/-- Python `int(x)` on a real value: truncation toward zero. -/
def pytrunc (q : ℚ) : ℤ := if 0 ≤ q then ⌊q⌋ else ⌈q⌉

-- ── Configuration constants (src/assembly.py lines 53-74) ──

def VIDEO_WIDTH : ℤ := 1080
def VIDEO_HEIGHT : ℤ := 1920
def ZOOM_FACTOR : ℚ := 1.2
def PAN_RANGE_X : ℤ := 60
def PAN_RANGE_Y : ℤ := 40
def MIN_IMAGE_DURATION : ℚ := 4
def MAX_IMAGE_DURATION : ℚ := 14
def CROSSFADE_DURATION : ℚ := 1.2

-- ── Image preparation (`_prepare_image`, lines 100-124) ──
-- The prepared canvas is center-cropped to exactly (targetW, targetH).

def targetW : ℤ := pytrunc ((VIDEO_WIDTH : ℚ) * ZOOM_FACTOR) + PAN_RANGE_X * 2

def targetH : ℤ := pytrunc ((VIDEO_HEIGHT : ℚ) * ZOOM_FACTOR) + PAN_RANGE_Y * 2

-- ── Ken Burns effect (`KenBurnsClip`, lines 129-181) ──

/-- One of the eight animation profiles:
`(start_z, end_z, spx, epx, spy, epy)` (lines 141-150). -/
structure Directive where
  startZ : ℚ
  endZ : ℚ
  spx : ℤ
  epx : ℤ
  spy : ℤ
  epy : ℤ
deriving DecidableEq

/-- The `directions` table of `KenBurnsClip.__init__` (lines 141-150). -/
def directions : List Directive :=
  [ ⟨1, ZOOM_FACTOR, 0, PAN_RANGE_X, 0, PAN_RANGE_Y⟩
  , ⟨ZOOM_FACTOR, 1, PAN_RANGE_X, 0, PAN_RANGE_Y, 0⟩
  , ⟨1, ZOOM_FACTOR, PAN_RANGE_X, 0, 0, PAN_RANGE_Y⟩
  , ⟨ZOOM_FACTOR, 1, 0, PAN_RANGE_X, PAN_RANGE_Y, 0⟩
  , ⟨1, ZOOM_FACTOR, 0, 0, PAN_RANGE_Y, 0⟩
  , ⟨ZOOM_FACTOR, 1, 0, 0, 0, PAN_RANGE_Y⟩
  , ⟨1, ZOOM_FACTOR, Int.fdiv PAN_RANGE_X 2, PAN_RANGE_X, 0, PAN_RANGE_Y⟩
  , ⟨ZOOM_FACTOR, 1, PAN_RANGE_X, Int.fdiv PAN_RANGE_X 2, PAN_RANGE_Y, 0⟩ ]

/-- `directions[direction % len(directions)]` (line 151). -/
def dirAt (direction : ℕ) : Directive :=
  directions.getD (direction % directions.length) ⟨1, 1, 0, 0, 0, 0⟩

/-- `progress = t / self.duration` (line 155).  Note: the source applies
no clamping to `progress`. -/
def kenBurnsProgress (t duration : ℚ) : ℚ := t / duration

/-- `zoom = start_z + (end_z - start_z) * progress` (line 157). -/
def zoomOf (d : Directive) (t duration : ℚ) : ℚ :=
  d.startZ + (d.endZ - d.startZ) * kenBurnsProgress t duration

/-- `pan_x = int(spx + (epx - spx) * progress)` (line 158). -/
def panXOf (d : Directive) (t duration : ℚ) : ℤ :=
  pytrunc ((d.spx : ℚ) + ((d.epx : ℚ) - (d.spx : ℚ)) * kenBurnsProgress t duration)

/-- `pan_y = int(spy + (epy - spy) * progress)` (line 159). -/
def panYOf (d : Directive) (t duration : ℚ) : ℤ :=
  pytrunc ((d.spy : ℚ) + ((d.epy : ℚ) - (d.spy : ℚ)) * kenBurnsProgress t duration)

/-- `crop_w = int(VIDEO_WIDTH / zoom)` (line 161). -/
def cropWOf (d : Directive) (t duration : ℚ) : ℤ :=
  pytrunc ((VIDEO_WIDTH : ℚ) / zoomOf d t duration)

/-- `crop_h = int(VIDEO_HEIGHT / zoom)` (line 162). -/
def cropHOf (d : Directive) (t duration : ℚ) : ℤ :=
  pytrunc ((VIDEO_HEIGHT : ℚ) / zoomOf d t duration)

/-- The crop-window computation of `KenBurnsClip.make_frame`
(lines 164-175): returns `(x1, y1, x2, y2)` for a source canvas of size
`srcW × srcH`. -/
def makeFrameCrop (srcW srcH : ℤ) (d : Directive) (t duration : ℚ) :
    ℤ × ℤ × ℤ × ℤ :=
  let cropW := cropWOf d t duration
  let cropH := cropHOf d t duration
  let centerX := Int.fdiv srcW 2 + panXOf d t duration
  let centerY := Int.fdiv srcH 2 + panYOf d t duration
  let x1 := max 0 (centerX - Int.fdiv cropW 2)
  let y1 := max 0 (centerY - Int.fdiv cropH 2)
  let x2 := min srcW (x1 + cropW)
  let y2 := min srcH (y1 + cropH)
  let x1 := if x2 - x1 < cropW then max 0 (x2 - cropW) else x1
  let y1 := if y2 - y1 < cropH then max 0 (y2 - cropH) else y1
  (x1, y1, x2, y2)

-- ── Scene duration allocation (`_resolve_image_durations`, lines 195-226) ──

/-- The equal-distribution fallback branch (lines 223-226). -/
def equalFallback (numImages : ℕ) (audioDuration : ℚ) : List ℚ :=
  let base := audioDuration / (numImages : ℚ)
  let clamped := max MIN_IMAGE_DURATION (min MAX_IMAGE_DURATION base)
  List.replicate numImages clamped

/-- The guard `scene_timing and len(scene_timing) == num_images and
all(t > 0 for t in scene_timing)` (line 212); Python truthiness makes
`None` and `[]` fail the first conjunct. -/
def validTiming (numImages : ℕ) : Option (List ℚ) → Bool
  | none => false
  | some timing =>
      !timing.isEmpty && timing.length == numImages
        && timing.all fun t => decide (0 < t)

/-- `_resolve_image_durations` (lines 195-226). -/
def resolveImageDurations (numImages : ℕ) (audioDuration : ℚ)
    (sceneTiming : Option (List ℚ)) : List ℚ :=
  match sceneTiming with
  | some timing =>
      if validTiming numImages (some timing) then
        let totalWeight := timing.sum
        let durations := timing.map fun t =>
          max MIN_IMAGE_DURATION ((t / totalWeight) * audioDuration)
        let scale := audioDuration / durations.sum
        durations.map (· * scale)
      else equalFallback numImages audioDuration
  | none => equalFallback numImages audioDuration

-- ── Caption word wrap (`_render_caption_frame`, lines 241-259) ──
-- Strings are modelled as `List Char`.  The wrap is parameterised by the
-- font measure `m : List Char → ℤ` (the pixel width `textbbox` reports
-- for a rendered string).

/-- Whitespace test used for Python `str.split()`. -/
def isSpaceChar (c : Char) : Bool := c.isWhitespace

/-- Helper for `pyWords`: accumulates the current word reversed. -/
def wordsAux : List Char → List Char → List (List Char)
  | [], cur => if cur.isEmpty then [] else [cur.reverse]
  | c :: cs, cur =>
      if isSpaceChar c then
        if cur.isEmpty then wordsAux cs [] else cur.reverse :: wordsAux cs []
      else wordsAux cs (c :: cur)

/-- Python `text.split()`: whitespace-separated words, empties dropped. -/
def pyWords (s : List Char) : List (List Char) := wordsAux s []

/-- Python `" ".join(ws)`. -/
def unwords (ws : List (List Char)) : List Char := List.intercalate [' '] ws

/-- The greedy wrap loop of `_render_caption_frame` (lines 246-259):
`cur` is `current_line`; a word is appended while the measured width of
`" ".join(current_line + [word])` stays within `maxW`, otherwise the
current line is flushed (when non-empty) and a new line starts. -/
def wrapAux (m : List Char → ℤ) (maxW : ℤ) :
    List (List Char) → List (List Char) → List (List (List Char))
  | [], cur => if cur.isEmpty then [] else [cur]
  | w :: ws, cur =>
      if m (unwords (cur ++ [w])) ≤ maxW then wrapAux m maxW ws (cur ++ [w])
      else if cur.isEmpty then wrapAux m maxW ws [w]
      else cur :: wrapAux m maxW ws [w]

/-- The wrapped lines (as word lists) produced for input words `ws`. -/
def wrapWords (m : List Char → ℤ) (maxW : ℤ) (ws : List (List Char)) :
    List (List (List Char)) :=
  wrapAux m maxW ws []

/-- The lines of `_render_caption_frame` for input text `s`: the greedy
wrap of `s.split()` against `max_width`, each line joined by `" "`. -/
def renderLines (m : List Char → ℤ) (maxW : ℤ) (s : List Char) :
    List (List Char) :=
  (wrapWords m maxW (pyWords s)).map unwords

/-- The font measure of claim C7: every word renders 100 px wide and
inter-word spacing is 10 px, so a string of `k` words measures
`110*k - 10` px. -/
def measureC7 (s : List Char) : ℤ := 110 * (pyWords s).length - 10

-- ── Caption scheduling (`_build_caption_clips`, lines 325-357) ──

/-- Python `text.strip()`: drop leading and trailing whitespace. -/
def pyStrip (s : List Char) : List Char :=
  ((s.dropWhile isSpaceChar).reverse.dropWhile isSpaceChar).reverse

/-- A caption chunk `{text, start, end}`; `stop` models `chunk["end"]`. -/
structure CaptionChunk where
  text : List Char
  start : ℚ
  stop : ℚ
deriving DecidableEq

/-- A scheduled caption clip: rendered text, start time, duration. -/
structure CaptionClip where
  text : List Char
  start : ℚ
  duration : ℚ
deriving DecidableEq

/-- `_build_caption_clips` (lines 325-357): per chunk, strip the text,
clamp `end` to `total_duration`, and skip when the clipped duration is
`≤ 0` or the stripped text is empty; otherwise schedule one clip. -/
def buildCaptionClips (chunks : List CaptionChunk) (totalDuration : ℚ) :
    List CaptionClip :=
  match chunks with
  | [] => []
  | chunk :: rest =>
      let text := pyStrip chunk.text
      let stop := min chunk.stop totalDuration
      let duration := stop - chunk.start
      if duration ≤ 0 ∨ text = [] then buildCaptionClips rest totalDuration
      else ⟨text, chunk.start, duration⟩ :: buildCaptionClips rest totalDuration

/-- The per-chunk decision of `_build_caption_clips` as a `filterMap`
step: `none` when the chunk is skipped, `some clip` otherwise. -/
def chunkClip (totalDuration : ℚ) (chunk : CaptionChunk) :
    Option CaptionClip :=
  let text := pyStrip chunk.text
  let stop := min chunk.stop totalDuration
  let duration := stop - chunk.start
  if duration ≤ 0 ∨ text = [] then none
  else some ⟨text, chunk.start, duration⟩

-- ── Scene scheduling loop of `assemble_video` (lines 410-448) ──

/-- One scheduled scene: start offset, clip duration (display duration
plus crossfade), and whether fade-in / fade-out are applied. -/
structure SceneSlot where
  start : ℚ
  clipDuration : ℚ
  hasFadeIn : Bool
  hasFadeOut : Bool
deriving DecidableEq

/-- The loop body of `assemble_video` (lines 410-448): scene `i` (the
counter starts at `j`) of `n` gets clip duration `durations[i] +
CROSSFADE_DURATION`, fade-in iff `i > 0`, fade-out iff `i < n - 1`, and
starts at the running sum `currentTime` of previous display durations. -/
def sceneSlotsAux (n : ℕ) (j : ℕ) (currentTime : ℚ) :
    List ℚ → List SceneSlot
  | [] => []
  | d :: rest =>
      ⟨currentTime, d + CROSSFADE_DURATION, decide (0 < j), decide (j < n - 1)⟩
        :: sceneSlotsAux n (j + 1) (currentTime + d) rest

/-- The scene schedule built by `assemble_video` from the per-image
display durations. -/
def buildSceneSlots (durations : List ℚ) : List SceneSlot :=
  sceneSlotsAux durations.length 0 0 durations

-- ── `assemble_video` control flow (lines 362-469) ──

/-- Abstract inputs of `assemble_video`: `audio` is `some duration` when
the audio file loads and `none` when it is missing or unreadable; images
are abstract references. -/
structure AssemblyInput where
  audio : Option ℚ
  images : List ℕ
  chunks : List CaptionChunk
  sceneTiming : Option (List ℚ)

/-- Outcome of an assembly run (exception-free rendering path). -/
inductive AssembleOutcome where
  | audioFailure : AssembleOutcome
  | noImages : AssembleOutcome
  | rendered : (numScenes : ℕ) → (numCaptionClips : ℕ) → AssembleOutcome
deriving DecidableEq

/-- Control flow of `assemble_video` (lines 383-469) on the
exception-free path: audio-load failure returns `None` before anything
is built; an empty image list returns `None` before any clip is built;
otherwise durations, scene clips and caption clips are built and the
video is rendered. -/
def assembleVideo (inp : AssemblyInput) : AssembleOutcome :=
  match inp.audio with
  | none => .audioFailure
  | some totalDuration =>
      if inp.images.isEmpty then .noImages
      else
        let durations :=
          resolveImageDurations inp.images.length totalDuration inp.sceneTiming
        let slots := buildSceneSlots durations
        let capClips := buildCaptionClips inp.chunks totalDuration
        .rendered slots.length capClips.length

end Assembly

namespace Assembly

/-- The raw (pre-rescale) weighted durations of `_resolve_image_durations`
(lines 214-217). -/
def rawWeighted (audioDuration : ℚ) (timing : List ℚ) : List ℚ :=
  timing.map fun t => max MIN_IMAGE_DURATION ((t / timing.sum) * audioDuration)

theorem rawWeighted_sum_pos (audioDuration : ℚ) (timing : List ℚ)
    (hne : timing ≠ []) : 0 < (rawWeighted audioDuration timing).sum := by
  apply List.sum_pos
  · intro x hx
    simp only [rawWeighted, List.mem_map] at hx
    obtain ⟨t, _, rfl⟩ := hx
    have h4 : (0 : ℚ) < MIN_IMAGE_DURATION := by norm_num [MIN_IMAGE_DURATION]
    exact lt_of_lt_of_le h4 (le_max_left _ _)
  · simpa [rawWeighted] using hne

theorem validTiming_true (numImages : ℕ) (timing : List ℚ)
    (hne : timing ≠ []) (hlen : timing.length = numImages)
    (hpos : ∀ t ∈ timing, 0 < t) :
    validTiming numImages (some timing) = true := by
  simp only [validTiming, Bool.and_eq_true, List.all_eq_true, decide_eq_true_eq,
    beq_iff_eq, Bool.not_eq_true', List.isEmpty_eq_false]
  exact ⟨⟨hne, hlen⟩, hpos⟩

/-- C1: with a valid positive weight list of matching length, the
allocator computes `raw_i = max(MIN_DURATION, (w_i/Σw) * audio)` and
rescales by `audio / Σraw`, so the durations sum to the audio duration
within 1e-3 s. -/
theorem weighted_durations_sum (numImages : ℕ) (audioDuration : ℚ)
    (timing : List ℚ)
    (hnum : 1 ≤ numImages) (haudio : 0 < audioDuration)
    (hne : timing ≠ []) (hlen : timing.length = numImages)
    (hpos : ∀ t ∈ timing, 0 < t) :
    resolveImageDurations numImages audioDuration (some timing) =
      (rawWeighted audioDuration timing).map
        (· * (audioDuration / (rawWeighted audioDuration timing).sum)) ∧
    |(resolveImageDurations numImages audioDuration (some timing)).sum
        - audioDuration| ≤ 1 / 1000 := by
  have hvalid := validTiming_true numImages timing hne hlen hpos
  have hres : resolveImageDurations numImages audioDuration (some timing) =
      (rawWeighted audioDuration timing).map
        (· * (audioDuration / (rawWeighted audioDuration timing).sum)) := by
    simp only [resolveImageDurations, hvalid, if_pos, rawWeighted]
  refine ⟨hres, ?_⟩
  rw [hres]
  have hsum : ((rawWeighted audioDuration timing).map
      (· * (audioDuration / (rawWeighted audioDuration timing).sum))).sum =
      (rawWeighted audioDuration timing).sum *
        (audioDuration / (rawWeighted audioDuration timing).sum) := by
    simpa using List.sum_map_mul_right (rawWeighted audioDuration timing) id
      (audioDuration / (rawWeighted audioDuration timing).sum)
  rw [hsum]
  have hpos' := rawWeighted_sum_pos audioDuration timing hne
  rw [mul_div_cancel₀ _ (ne_of_gt hpos')]
  simp

theorem weighted_durations_sum_witness :
    (1 ≤ 4 ∧ (0:ℚ) < 30 ∧ ([3, 7, 8, 10] : List ℚ) ≠ [] ∧
      ([3, 7, 8, 10] : List ℚ).length = 4 ∧
      (∀ t ∈ ([3, 7, 8, 10] : List ℚ), 0 < t)) ∧
    (resolveImageDurations 4 30 (some [3, 7, 8, 10]) =
      (rawWeighted 30 [3, 7, 8, 10]).map
        (· * (30 / (rawWeighted 30 [3, 7, 8, 10]).sum)) ∧
    |(resolveImageDurations 4 30 (some [3, 7, 8, 10])).sum - 30| ≤ 1 / 1000) :=
  ⟨⟨by norm_num, by norm_num, by simp, by simp, by norm_num⟩,
    weighted_durations_sum 4 30 [3, 7, 8, 10] (by norm_num) (by norm_num)
      (by simp) (by simp) (by norm_num)⟩

/-- C2: when `scene_timing` is absent, of wrong length, or has a
non-positive entry, every image gets the same duration
`clamp(audio/num, MIN, MAX)`, and this fallback does not rescale: its
total can differ from the audio duration (e.g. one image, 1 s audio). -/
theorem fallback_durations (numImages : ℕ) (audioDuration : ℚ)
    (sceneTiming : Option (List ℚ)) (hnum : 1 ≤ numImages)
    (hbad : sceneTiming = none ∨ ∃ timing, sceneTiming = some timing ∧
      (timing.length ≠ numImages ∨ ∃ t ∈ timing, t ≤ 0)) :
    resolveImageDurations numImages audioDuration sceneTiming =
      List.replicate numImages
        (max MIN_IMAGE_DURATION
          (min MAX_IMAGE_DURATION (audioDuration / (numImages : ℚ)))) ∧
    (resolveImageDurations 1 1 none).sum ≠ 1 := by
  constructor
  · rcases hbad with rfl | ⟨timing, rfl, hbad⟩
    · rfl
    · have hfalse : ¬ (validTiming numImages (some timing) = true) := by
        intro h
        simp only [validTiming, Bool.and_eq_true, Bool.not_eq_true',
          List.isEmpty_eq_false, beq_iff_eq, List.all_eq_true,
          decide_eq_true_eq] at h
        obtain ⟨⟨hne', hlen'⟩, hall⟩ := h
        rcases hbad with hlen | ⟨t, ht, hle⟩
        · exact hlen hlen'
        · exact absurd (hall t ht) (not_lt.mpr hle)
      simp only [resolveImageDurations]
      rw [if_neg hfalse]
      rfl
  · norm_num [resolveImageDurations, equalFallback, MIN_IMAGE_DURATION,
      MAX_IMAGE_DURATION]

theorem fallback_durations_witness :
    (1 ≤ 3 ∧ ((some [1, 2] : Option (List ℚ)) = none ∨
      ∃ timing, (some [1, 2] : Option (List ℚ)) = some timing ∧
        (timing.length ≠ 3 ∨ ∃ t ∈ timing, t ≤ 0))) ∧
    (resolveImageDurations 3 10 (some [1, 2]) =
      List.replicate 3
        (max MIN_IMAGE_DURATION
          (min MAX_IMAGE_DURATION ((10 : ℚ) / (3 : ℕ)))) ∧
    (resolveImageDurations 1 1 none).sum ≠ 1) :=
  ⟨⟨by norm_num, Or.inr ⟨[1, 2], rfl, Or.inl (by simp)⟩⟩,
    fallback_durations 3 10 (some [1, 2]) (by norm_num)
      (Or.inr ⟨[1, 2], rfl, Or.inl (by simp)⟩)⟩

end Assembly

namespace Assembly

theorem targetW_eq : targetW = 1416 := by
  norm_num [targetW, pytrunc, VIDEO_WIDTH, ZOOM_FACTOR, PAN_RANGE_X]

theorem targetH_eq : targetH = 2384 := by
  norm_num [targetH, pytrunc, VIDEO_HEIGHT, ZOOM_FACTOR, PAN_RANGE_Y]

theorem pytrunc_of_nonneg (q : ℚ) (h : 0 ≤ q) : pytrunc q = ⌊q⌋ := if_pos h

/-- Every animation profile either zooms in from 1 to `ZOOM_FACTOR` or
out from `ZOOM_FACTOR` to 1. -/
theorem dirAt_profile (i : ℕ) :
    (dirAt i).startZ = 1 ∧ (dirAt i).endZ = ZOOM_FACTOR ∨
    (dirAt i).startZ = ZOOM_FACTOR ∧ (dirAt i).endZ = 1 := by
  have h : i % 8 = 0 ∨ i % 8 = 1 ∨ i % 8 = 2 ∨ i % 8 = 3 ∨ i % 8 = 4 ∨
      i % 8 = 5 ∨ i % 8 = 6 ∨ i % 8 = 7 := by omega
  have hlen : directions.length = 8 := rfl
  rcases h with h | h | h | h | h | h | h | h <;>
    simp [dirAt, directions, hlen, h]

theorem progress_bounds (t dur : ℚ) (hd : 0 < dur) (h0 : 0 ≤ t)
    (h1 : t ≤ dur) :
    0 ≤ kenBurnsProgress t dur ∧ kenBurnsProgress t dur ≤ 1 :=
  ⟨div_nonneg h0 hd.le, (div_le_one hd).mpr h1⟩

theorem zoom_bounds (i : ℕ) (t dur : ℚ) (hd : 0 < dur) (h0 : 0 ≤ t)
    (h1 : t ≤ dur) :
    1 ≤ zoomOf (dirAt i) t dur ∧ zoomOf (dirAt i) t dur ≤ ZOOM_FACTOR := by
  obtain ⟨hp0, hp1⟩ := progress_bounds t dur hd h0 h1
  have hz : ZOOM_FACTOR = 6 / 5 := by norm_num [ZOOM_FACTOR]
  rcases dirAt_profile i with ⟨ha, hb⟩ | ⟨ha, hb⟩ <;>
    rw [zoomOf, ha, hb, hz] <;> constructor <;> nlinarith [hp0, hp1]

theorem cropW_bounds (i : ℕ) (t dur : ℚ) (hd : 0 < dur) (h0 : 0 ≤ t)
    (h1 : t ≤ dur) :
    900 ≤ cropWOf (dirAt i) t dur ∧ cropWOf (dirAt i) t dur ≤ 1080 := by
  obtain ⟨hz1, hz2⟩ := zoom_bounds i t dur hd h0 h1
  have hz : ZOOM_FACTOR = 6 / 5 := by norm_num [ZOOM_FACTOR]
  rw [hz] at hz2
  have hzpos : 0 < zoomOf (dirAt i) t dur := lt_of_lt_of_le one_pos hz1
  have hWq : ((VIDEO_WIDTH : ℤ) : ℚ) = 1080 := by norm_num [VIDEO_WIDTH]
  have hq1 : (900 : ℚ) ≤ (VIDEO_WIDTH : ℚ) / zoomOf (dirAt i) t dur := by
    rw [le_div_iff hzpos, hWq]; nlinarith
  have hq2 : (VIDEO_WIDTH : ℚ) / zoomOf (dirAt i) t dur ≤ 1080 := by
    rw [div_le_iff hzpos, hWq]; nlinarith
  have hnn : 0 ≤ (VIDEO_WIDTH : ℚ) / zoomOf (dirAt i) t dur := by linarith
  rw [cropWOf, pytrunc_of_nonneg _ hnn]
  constructor
  · exact Int.le_floor.mpr (by push_cast; exact hq1)
  · have := Int.floor_mono hq2
    simpa using this

theorem cropH_bounds (i : ℕ) (t dur : ℚ) (hd : 0 < dur) (h0 : 0 ≤ t)
    (h1 : t ≤ dur) :
    1600 ≤ cropHOf (dirAt i) t dur ∧ cropHOf (dirAt i) t dur ≤ 1920 := by
  obtain ⟨hz1, hz2⟩ := zoom_bounds i t dur hd h0 h1
  have hz : ZOOM_FACTOR = 6 / 5 := by norm_num [ZOOM_FACTOR]
  rw [hz] at hz2
  have hzpos : 0 < zoomOf (dirAt i) t dur := lt_of_lt_of_le one_pos hz1
  have hWq : ((VIDEO_HEIGHT : ℤ) : ℚ) = 1920 := by norm_num [VIDEO_HEIGHT]
  have hq1 : (1600 : ℚ) ≤ (VIDEO_HEIGHT : ℚ) / zoomOf (dirAt i) t dur := by
    rw [le_div_iff hzpos, hWq]; nlinarith
  have hq2 : (VIDEO_HEIGHT : ℚ) / zoomOf (dirAt i) t dur ≤ 1920 := by
    rw [div_le_iff hzpos, hWq]; nlinarith
  have hnn : 0 ≤ (VIDEO_HEIGHT : ℚ) / zoomOf (dirAt i) t dur := by linarith
  rw [cropHOf, pytrunc_of_nonneg _ hnn]
  constructor
  · exact Int.le_floor.mpr (by push_cast; exact hq1)
  · have := Int.floor_mono hq2
    simpa using this

/-- The boundary clamp of `make_frame` shifts a window of size `cw`
inside `[0, W]` without shrinking it, for any initial left edge
`x0 ≥ 0`. -/
theorem clampShift (W cw x0 : ℤ) (hcw : 0 < cw) (hle : cw ≤ W)
    (hx0 : 0 ≤ x0) :
    0 ≤ (if min W (x0 + cw) - x0 < cw then max 0 (min W (x0 + cw) - cw)
          else x0) ∧
    (if min W (x0 + cw) - x0 < cw then max 0 (min W (x0 + cw) - cw)
      else x0) < min W (x0 + cw) ∧
    min W (x0 + cw) ≤ W ∧
    min W (x0 + cw) -
      (if min W (x0 + cw) - x0 < cw then max 0 (min W (x0 + cw) - cw)
        else x0) = cw := by
  split <;> omega

/-- C3: for the prepared canvas size and any profile and any
`t ∈ [0, duration]`, the crop window of `make_frame` satisfies
`0 ≤ x1 < x2 ≤ canvas_w`, `0 ≤ y1 < y2 ≤ canvas_h`, and the boundary
clamp shifts rather than shrinks: `x2 - x1 = crop_w` and
`y2 - y1 = crop_h`. -/
theorem kenburns_crop_window (i : ℕ) (t dur : ℚ) (x1 y1 x2 y2 : ℤ)
    (hd : 0 < dur) (h0 : 0 ≤ t) (h1 : t ≤ dur)
    (h : makeFrameCrop targetW targetH (dirAt i) t dur = (x1, y1, x2, y2)) :
    0 ≤ x1 ∧ x1 < x2 ∧ x2 ≤ targetW ∧
    0 ≤ y1 ∧ y1 < y2 ∧ y2 ≤ targetH ∧
    x2 - x1 = cropWOf (dirAt i) t dur ∧
    y2 - y1 = cropHOf (dirAt i) t dur := by
  obtain ⟨hcw1, hcw2⟩ := cropW_bounds i t dur hd h0 h1
  obtain ⟨hch1, hch2⟩ := cropH_bounds i t dur hd h0 h1
  simp only [makeFrameCrop, Prod.mk.injEq] at h
  obtain ⟨hx1, hy1, hx2, hy2⟩ := h
  subst hx1 hy1 hx2 hy2
  have hX := clampShift targetW (cropWOf (dirAt i) t dur)
    (max 0 (Int.fdiv targetW 2 + panXOf (dirAt i) t dur -
      Int.fdiv (cropWOf (dirAt i) t dur) 2))
    (by omega) (by rw [targetW_eq]; omega) (le_max_left _ _)
  have hY := clampShift targetH (cropHOf (dirAt i) t dur)
    (max 0 (Int.fdiv targetH 2 + panYOf (dirAt i) t dur -
      Int.fdiv (cropHOf (dirAt i) t dur) 2))
    (by omega) (by rw [targetH_eq]; omega) (le_max_left _ _)
  exact ⟨hX.1, hX.2.1, hX.2.2.1, hY.1, hY.2.1, hY.2.2.1, hX.2.2.2, hY.2.2.2⟩

theorem kenburns_crop_window_witness :
    ((0 : ℚ) < 10 ∧ (0 : ℚ) ≤ 0 ∧ (0 : ℚ) ≤ 10 ∧
      makeFrameCrop targetW targetH (dirAt 0) 0 10 =
        ((makeFrameCrop targetW targetH (dirAt 0) 0 10).1,
         (makeFrameCrop targetW targetH (dirAt 0) 0 10).2.1,
         (makeFrameCrop targetW targetH (dirAt 0) 0 10).2.2.1,
         (makeFrameCrop targetW targetH (dirAt 0) 0 10).2.2.2)) ∧
    (0 ≤ (makeFrameCrop targetW targetH (dirAt 0) 0 10).1 ∧
     (makeFrameCrop targetW targetH (dirAt 0) 0 10).1 <
       (makeFrameCrop targetW targetH (dirAt 0) 0 10).2.2.1 ∧
     (makeFrameCrop targetW targetH (dirAt 0) 0 10).2.2.1 ≤ targetW ∧
     0 ≤ (makeFrameCrop targetW targetH (dirAt 0) 0 10).2.1 ∧
     (makeFrameCrop targetW targetH (dirAt 0) 0 10).2.1 <
       (makeFrameCrop targetW targetH (dirAt 0) 0 10).2.2.2 ∧
     (makeFrameCrop targetW targetH (dirAt 0) 0 10).2.2.2 ≤ targetH ∧
     (makeFrameCrop targetW targetH (dirAt 0) 0 10).2.2.1 -
       (makeFrameCrop targetW targetH (dirAt 0) 0 10).1 =
         cropWOf (dirAt 0) 0 10 ∧
     (makeFrameCrop targetW targetH (dirAt 0) 0 10).2.2.2 -
       (makeFrameCrop targetW targetH (dirAt 0) 0 10).2.1 =
         cropHOf (dirAt 0) 0 10) :=
  ⟨⟨by norm_num, le_refl 0, by norm_num, rfl⟩,
    kenburns_crop_window 0 0 10
      (makeFrameCrop targetW targetH (dirAt 0) 0 10).1
      (makeFrameCrop targetW targetH (dirAt 0) 0 10).2.1
      (makeFrameCrop targetW targetH (dirAt 0) 0 10).2.2.1
      (makeFrameCrop targetW targetH (dirAt 0) 0 10).2.2.2
      (by norm_num) (le_refl 0) (by norm_num) rfl⟩

end Assembly

namespace Assembly

/-- C4 counterexample: `make_frame` does not clamp; at `t = 2` with
`duration = 1` the progress is `2`, not `clamp(2, 0, 1) = 1`. -/
theorem progress_not_clamped :
    kenBurnsProgress 2 1 = 2 ∧
    max 0 (min (kenBurnsProgress 2 1) 1) = 1 ∧
    kenBurnsProgress 2 1 ≠ max 0 (min (kenBurnsProgress 2 1) 1) := by
  refine ⟨by norm_num [kenBurnsProgress], ?_, ?_⟩ <;>
    norm_num [kenBurnsProgress]

/-- C4 (amended): the renderer uses the unclamped `progress = t/duration`;
for the times `0 ≤ t ≤ duration` it is actually evaluated at, the
progress lies in `[0, 1]`, and zoom and pan are affine interpolations of
this progress. -/
theorem progress_in_unit_interval (d : Directive) (t dur : ℚ)
    (hd : 0 < dur) (h0 : 0 ≤ t) (h1 : t ≤ dur) :
    kenBurnsProgress t dur = t / dur ∧
    0 ≤ kenBurnsProgress t dur ∧ kenBurnsProgress t dur ≤ 1 ∧
    zoomOf d t dur =
      d.startZ + (d.endZ - d.startZ) * kenBurnsProgress t dur ∧
    panXOf d t dur =
      pytrunc ((d.spx : ℚ) +
        ((d.epx : ℚ) - (d.spx : ℚ)) * kenBurnsProgress t dur) ∧
    panYOf d t dur =
      pytrunc ((d.spy : ℚ) +
        ((d.epy : ℚ) - (d.spy : ℚ)) * kenBurnsProgress t dur) := by
  obtain ⟨hp0, hp1⟩ := progress_bounds t dur hd h0 h1
  exact ⟨rfl, hp0, hp1, rfl, rfl, rfl⟩

theorem progress_in_unit_interval_witness :
    ((0 : ℚ) < 4 ∧ (0 : ℚ) ≤ 1 ∧ (1 : ℚ) ≤ 4) ∧
    (kenBurnsProgress 1 4 = 1 / 4 ∧
     0 ≤ kenBurnsProgress 1 4 ∧ kenBurnsProgress 1 4 ≤ 1 ∧
     zoomOf (dirAt 0) 1 4 =
       (dirAt 0).startZ +
         ((dirAt 0).endZ - (dirAt 0).startZ) * kenBurnsProgress 1 4 ∧
     panXOf (dirAt 0) 1 4 =
       pytrunc (((dirAt 0).spx : ℚ) +
         (((dirAt 0).epx : ℚ) - ((dirAt 0).spx : ℚ)) * kenBurnsProgress 1 4) ∧
     panYOf (dirAt 0) 1 4 =
       pytrunc (((dirAt 0).spy : ℚ) +
         (((dirAt 0).epy : ℚ) - ((dirAt 0).spy : ℚ)) * kenBurnsProgress 1 4)) :=
  ⟨⟨by norm_num, by norm_num, by norm_num⟩,
    progress_in_unit_interval (dirAt 0) 1 4 (by norm_num) (by norm_num)
      (by norm_num)⟩

/-- C5: at `t = 0` the crop width is exactly `VIDEO_WIDTH / start_zoom`
and at `t = duration` exactly `VIDEO_WIDTH / end_zoom` (the
`floor(VIDEO_W/zoom)` loses nothing because both `1080/1` and
`1080/1.2 = 900` are integers), for every directive profile. -/
theorem crop_width_at_endpoints (i : ℕ) (dur : ℚ) (hd : 0 < dur) :
    ((cropWOf (dirAt i) 0 dur : ℚ) = (VIDEO_WIDTH : ℚ) / (dirAt i).startZ ∧
     (cropWOf (dirAt i) dur dur : ℚ) = (VIDEO_WIDTH : ℚ) / (dirAt i).endZ) := by
  have hp0 : kenBurnsProgress 0 dur = 0 := by
    simp [kenBurnsProgress]
  have hp1 : kenBurnsProgress dur dur = 1 := by
    simp [kenBurnsProgress, div_self (ne_of_gt hd)]
  have hz0 : zoomOf (dirAt i) 0 dur = (dirAt i).startZ := by
    simp [zoomOf, hp0]
  have hz1 : zoomOf (dirAt i) dur dur = (dirAt i).endZ := by
    simp [zoomOf, hp1]
  have hW : ((VIDEO_WIDTH : ℤ) : ℚ) = 1080 := by norm_num [VIDEO_WIDTH]
  rcases dirAt_profile i with ⟨ha, hb⟩ | ⟨ha, hb⟩ <;>
    constructor <;>
      simp only [cropWOf, hz0, hz1, ha, hb, hW] <;>
        norm_num [pytrunc, ZOOM_FACTOR]

theorem crop_width_at_endpoints_witness :
    (0 : ℚ) < 7 ∧
    ((cropWOf (dirAt 1) 0 7 : ℚ) = (VIDEO_WIDTH : ℚ) / (dirAt 1).startZ ∧
     (cropWOf (dirAt 1) 7 7 : ℚ) = (VIDEO_WIDTH : ℚ) / (dirAt 1).endZ) :=
  ⟨by norm_num, crop_width_at_endpoints 1 7 (by norm_num)⟩

end Assembly

namespace Assembly

/-- C6: the caption scheduler is exactly a per-chunk filter-map: a chunk
whose end, clamped to the total duration, gives duration `≤ 0`, or whose
trimmed text is empty, contributes zero clips (skipped, no error); every
other chunk contributes exactly one clip starting at `start` with
duration `min(end, total) - start`. -/
theorem caption_clips_filterMap (chunks : List CaptionChunk)
    (totalDuration : ℚ) :
    buildCaptionClips chunks totalDuration =
      chunks.filterMap (chunkClip totalDuration) := by
  induction chunks with
  | nil => rfl
  | cons chunk rest ih =>
      rw [buildCaptionClips, List.filterMap_cons]
      by_cases h : min chunk.stop totalDuration - chunk.start ≤ 0 ∨
          pyStrip chunk.text = []
      · rw [if_pos h, ih]
        have : chunkClip totalDuration chunk = none := by
          unfold chunkClip
          rw [if_pos h]
        rw [this]
      · rw [if_neg h, ih]
        have : chunkClip totalDuration chunk =
            some ⟨pyStrip chunk.text, chunk.start,
              min chunk.stop totalDuration - chunk.start⟩ := by
          unfold chunkClip
          rw [if_neg h]
        rw [this]

/-- The start offsets, clip durations and fade flags produced by the
scene loop, position by position. -/
theorem sceneSlotsAux_getD (durations : List ℚ) (n j : ℕ) (c : ℚ)
    (i : ℕ) (hi : i < durations.length) :
    (sceneSlotsAux n j c durations).getD i ⟨0, 0, false, false⟩ =
      ⟨c + (durations.take i).sum,
       durations.getD i 0 + CROSSFADE_DURATION,
       decide (0 < j + i), decide (j + i < n - 1)⟩ := by
  induction durations generalizing i j c with
  | nil => simp at hi
  | cons d rest ih =>
      cases i with
      | zero => simp [sceneSlotsAux]
      | succ i =>
          have hi' : i < rest.length := by simpa using hi
          rw [sceneSlotsAux]
          show (sceneSlotsAux n (j + 1) (c + d) rest).getD i _ = _
          rw [ih (j + 1) (c + d) i hi']
          have h1 : c + d + (rest.take i).sum =
              c + ((d :: rest).take (i + 1)).sum := by
            simp [List.take_succ_cons]; ring
          have h2 : j + 1 + i = j + (i + 1) := by omega
          simp only [List.getD_cons_succ, h1, h2]

/-- C9: scene 0 gets no fade-in, the final scene gets no fade-out, every
interior scene gets both, and scene `i` starts at the cumulative sum of
the preceding display durations with clip duration
`display_duration + CROSSFADE_DURATION`. -/
theorem scene_slots_spec (durations : List ℚ) (i : ℕ)
    (hi : i < durations.length) :
    ((buildSceneSlots durations).getD i ⟨0, 0, false, false⟩).start =
      (durations.take i).sum ∧
    ((buildSceneSlots durations).getD i ⟨0, 0, false, false⟩).clipDuration =
      durations.getD i 0 + CROSSFADE_DURATION ∧
    (((buildSceneSlots durations).getD i ⟨0, 0, false, false⟩).hasFadeIn =
      true ↔ 0 < i) ∧
    (((buildSceneSlots durations).getD i ⟨0, 0, false, false⟩).hasFadeOut =
      true ↔ i < durations.length - 1) := by
  rw [buildSceneSlots, sceneSlotsAux_getD durations durations.length 0 0 i hi]
  simp

theorem scene_slots_spec_witness :
    (1 < ([2, 3, 5] : List ℚ).length) ∧
    (((buildSceneSlots [2, 3, 5]).getD 1 ⟨0, 0, false, false⟩).start =
      (([2, 3, 5] : List ℚ).take 1).sum ∧
     ((buildSceneSlots [2, 3, 5]).getD 1 ⟨0, 0, false, false⟩).clipDuration =
      ([2, 3, 5] : List ℚ).getD 1 0 + CROSSFADE_DURATION ∧
     (((buildSceneSlots [2, 3, 5]).getD 1 ⟨0, 0, false, false⟩).hasFadeIn =
      true ↔ 0 < 1) ∧
     (((buildSceneSlots [2, 3, 5]).getD 1 ⟨0, 0, false, false⟩).hasFadeOut =
      true ↔ 1 < ([2, 3, 5] : List ℚ).length - 1)) :=
  ⟨by norm_num, scene_slots_spec [2, 3, 5] 1 (by norm_num)⟩

end Assembly

namespace Assembly

-- ── Word-wrap lemmas ──

theorem unwords_singleton (w : List Char) : unwords [w] = w := by
  simp [unwords, List.intercalate]

theorem unwords_cons₂ (a b : List Char) (t : List (List Char)) :
    unwords (a :: b :: t) = a ++ ' ' :: unwords (b :: t) := by
  simp [unwords, List.intercalate]

/-- No word of the input is lost or reordered by the greedy wrap: the
concatenation of the produced lines is the input word list (prefixed by
the current line). -/
theorem wrapAux_flatten (m : List Char → ℤ) (maxW : ℤ)
    (ws : List (List Char)) :
    ∀ cur, (wrapAux m maxW ws cur).flatten = cur ++ ws := by
  induction ws with
  | nil =>
      intro cur
      by_cases h : cur.isEmpty <;>
        simp_all [wrapAux, List.isEmpty_iff]
  | cons w ws ih =>
      intro cur
      rw [wrapAux]
      by_cases h1 : m (unwords (cur ++ [w])) ≤ maxW
      · rw [if_pos h1, ih]
        simp
      · rw [if_neg h1]
        by_cases h2 : cur.isEmpty
        · rw [if_pos h2, ih]
          simp_all [List.isEmpty_iff]
        · rw [if_neg h2]
          simp [ih]

/-- Once the current line alone already exceeds `maxW`, it is emitted as
its own line (extending it cannot shrink the measured width). -/
theorem wrapAux_cur_emitted (m : List Char → ℤ) (maxW : ℤ)
    (hext : ∀ l x, m (unwords l) ≤ m (unwords (l ++ [x])))
    (ws : List (List Char)) (cur : List (List Char))
    (hne : cur ≠ []) (hbig : maxW < m (unwords cur)) :
    cur ∈ wrapAux m maxW ws cur := by
  cases ws with
  | nil =>
      simp [wrapAux, List.isEmpty_iff, hne]
  | cons w ws =>
      rw [wrapAux]
      have h1 : ¬ m (unwords (cur ++ [w])) ≤ maxW := by
        have := hext cur w
        omega
      rw [if_neg h1]
      have h2 : cur.isEmpty = false := by
        simpa [List.isEmpty_iff] using hne
      rw [h2]
      simp

/-- A word measuring more than `maxW` on its own always ends up alone on
its own line. -/
theorem wrapAux_wide_word_alone (m : List Char → ℤ) (maxW : ℤ)
    (hsuf : ∀ l w, m (unwords [w]) ≤ m (unwords (l ++ [w])))
    (hext : ∀ l x, m (unwords l) ≤ m (unwords (l ++ [x])))
    (ws : List (List Char)) :
    ∀ cur w, w ∈ ws → maxW < m (unwords [w]) →
      [w] ∈ wrapAux m maxW ws cur := by
  induction ws with
  | nil => intro cur w hw; exact absurd hw (List.not_mem_nil w)
  | cons w' ws ih =>
      intro cur w hw hwide
      rcases List.mem_cons.mp hw with rfl | hw'
      · rw [wrapAux]
        have h1 : ¬ m (unwords (cur ++ [w])) ≤ maxW := by
          have := hsuf cur w
          omega
        rw [if_neg h1]
        have halone : [w] ∈ wrapAux m maxW ws [w] :=
          wrapAux_cur_emitted m maxW hext ws [w] (by simp)
            (by rwa [unwords_singleton] at hwide ⊢)
        by_cases h2 : cur.isEmpty
        · rw [if_pos h2]; exact halone
        · rw [if_neg h2]; exact List.mem_cons_of_mem cur halone
      · rw [wrapAux]
        by_cases h1 : m (unwords (cur ++ [w'])) ≤ maxW
        · rw [if_pos h1]; exact ih _ w hw' hwide
        · rw [if_neg h1]
          by_cases h2 : cur.isEmpty
          · rw [if_pos h2]; exact ih _ w hw' hwide
          · rw [if_neg h2]
            exact List.mem_cons_of_mem cur (ih _ w hw' hwide)

-- ── `split` / `join` round-trip lemmas ──

theorem wordsAux_nonspace_run (w : List Char)
    (hw : ∀ c ∈ w, isSpaceChar c = false) :
    ∀ rest cur, wordsAux (w ++ rest) cur = wordsAux rest (w.reverse ++ cur) := by
  induction w with
  | nil => intro rest cur; simp
  | cons c w ih =>
      intro rest cur
      have hc : isSpaceChar c = false := hw c (List.mem_cons_self c w)
      have hw' : ∀ c ∈ w, isSpaceChar c = false := fun x hx =>
        hw x (List.mem_cons_of_mem c hx)
      rw [List.cons_append, wordsAux, hc]
      simp only [Bool.false_eq_true, if_false]
      rw [ih hw' rest (c :: cur)]
      simp

theorem wordsAux_space_cons (rest : List Char) (cur : List Char)
    (hne : cur ≠ []) :
    wordsAux (' ' :: rest) cur = cur.reverse :: wordsAux rest [] := by
  have hsp : isSpaceChar ' ' = true := by decide
  have hcur : cur.isEmpty = false := by simpa [List.isEmpty_iff] using hne
  rw [wordsAux, hsp]
  simp [hcur]

/-- Splitting the space-join of nonempty, space-free words recovers
exactly those words. -/
theorem pyWords_unwords (wss : List (List Char))
    (h : ∀ w ∈ wss, w ≠ [] ∧ ∀ c ∈ w, isSpaceChar c = false) :
    pyWords (unwords wss) = wss := by
  induction wss with
  | nil => rfl
  | cons w wss ih =>
      obtain ⟨hwne, hwns⟩ := h w (List.mem_cons_self w wss)
      have h' : ∀ w ∈ wss, w ≠ [] ∧ ∀ c ∈ w, isSpaceChar c = false :=
        fun x hx => h x (List.mem_cons_of_mem w hx)
      cases wss with
      | nil =>
          rw [unwords_singleton, pyWords]
          have := wordsAux_nonspace_run w hwns [] []
          simp only [List.append_nil] at this
          rw [this, wordsAux]
          have : (w.reverse.isEmpty) = false := by
            simpa [List.isEmpty_iff] using hwne
          simp [this]
      | cons w' wss' =>
          rw [unwords_cons₂, pyWords]
          rw [wordsAux_nonspace_run w hwns _ []]
          rw [List.append_nil]
          rw [wordsAux_space_cons _ _ (by simpa using hwne)]
          rw [List.reverse_reverse]
          exact congrArg (w :: ·) (ih h')

/-- Every word produced by `pyWords` is nonempty and space-free. -/
theorem wordsAux_wellformed (s : List Char) :
    ∀ cur, (∀ c ∈ cur, isSpaceChar c = false) →
      ∀ w ∈ wordsAux s cur, w ≠ [] ∧ ∀ c ∈ w, isSpaceChar c = false := by
  induction s with
  | nil =>
      intro cur hcur w hw
      by_cases h : cur.isEmpty
      · rw [wordsAux, h] at hw; simp at hw
      · rw [wordsAux, Bool.of_not_eq_true h] at hw
        simp only [if_false, Bool.false_eq_true, List.mem_singleton] at hw
        subst hw
        refine ⟨by simpa [List.isEmpty_iff] using h, fun c hc => ?_⟩
        exact hcur c (List.mem_reverse.mp hc)
  | cons c s ih =>
      intro cur hcur w hw
      rw [wordsAux] at hw
      by_cases hc : isSpaceChar c
      · rw [hc] at hw
        simp only [if_true] at hw
        by_cases hcur' : cur.isEmpty
        · rw [hcur'] at hw
          simp only [if_true] at hw
          exact ih [] (by simp) w hw
        · rw [Bool.of_not_eq_true hcur'] at hw
          simp only [Bool.false_eq_true, if_false, List.mem_cons] at hw
          rcases hw with rfl | hw
          · refine ⟨by simpa [List.isEmpty_iff] using hcur', fun x hx => ?_⟩
            exact hcur x (List.mem_reverse.mp hx)
          · exact ih [] (by simp) w hw
      · rw [Bool.of_not_eq_true hc] at hw
        simp only [Bool.false_eq_true, if_false] at hw
        refine ih (c :: cur) ?_ w hw
        intro x hx
        rcases List.mem_cons.mp hx with rfl | hx
        · exact Bool.of_not_eq_true hc
        · exact hcur x hx

theorem pyWords_wellformed (s : List Char) :
    ∀ w ∈ pyWords s, w ≠ [] ∧ ∀ c ∈ w, isSpaceChar c = false :=
  wordsAux_wellformed s [] (by simp)

/-- The wrap never emits an empty line. -/
theorem wrapAux_no_empty_line (m : List Char → ℤ) (maxW : ℤ)
    (ws : List (List Char)) :
    ∀ cur, [] ∉ wrapAux m maxW ws cur := by
  induction ws with
  | nil =>
      intro cur h
      by_cases hc : cur.isEmpty
      · rw [wrapAux, hc] at h; simp at h
      · rw [wrapAux, Bool.of_not_eq_true hc] at h
        simp only [Bool.false_eq_true, if_false, List.mem_singleton] at h
        exact absurd h.symm (by simpa [List.isEmpty_iff] using hc)
  | cons w ws ih =>
      intro cur h
      rw [wrapAux] at h
      by_cases h1 : m (unwords (cur ++ [w])) ≤ maxW
      · rw [if_pos h1] at h; exact ih _ h
      · rw [if_neg h1] at h
        by_cases h2 : cur.isEmpty
        · rw [h2] at h; simp only [if_true] at h; exact ih _ h
        · rw [Bool.of_not_eq_true h2] at h
          simp only [Bool.false_eq_true, if_false, List.mem_cons] at h
          rcases h with h | h
          · exact absurd h.symm (by simpa [List.isEmpty_iff] using h2)
          · exact ih _ h

theorem unwords_append_of_ne (a b : List (List Char)) (ha : a ≠ [])
    (hb : b ≠ []) :
    unwords (a ++ b) = unwords a ++ ' ' :: unwords b := by
  induction a with
  | nil => exact absurd rfl ha
  | cons a0 a' ih =>
      cases a' with
      | nil =>
          cases b with
          | nil => exact absurd rfl hb
          | cons b0 b' => rw [List.singleton_append, unwords_cons₂,
              unwords_singleton]
      | cons a1 a'' =>
          have h1 : (a0 :: a1 :: a'') ++ b = a0 :: a1 :: (a'' ++ b) := rfl
          have h2 : a1 :: (a'' ++ b) = (a1 :: a'') ++ b := rfl
          rw [h1, unwords_cons₂, h2, ih (by simp), unwords_cons₂]
          simp

/-- Joining already-joined lines with single spaces is the same as
joining the concatenation of their words, provided no line is empty. -/
theorem unwords_map_unwords (wss : List (List (List Char)))
    (h : [] ∉ wss) :
    unwords (wss.map unwords) = unwords wss.flatten := by
  induction wss with
  | nil => rfl
  | cons l wss ih =>
      have hl : l ≠ [] := fun hc => h (hc ▸ List.mem_cons_self l wss)
      have h' : [] ∉ wss := fun hc => h (List.mem_cons_of_mem l hc)
      cases wss with
      | nil => simp [unwords_singleton]
      | cons l' wss' =>
          have hl' : l' ≠ [] := fun hc =>
            h' (hc ▸ List.mem_cons_self l' wss')
          have hfl : (l' :: wss').flatten ≠ [] := by
            cases l' with
            | nil => exact absurd rfl hl'
            | cons x xs => simp
          simp only [List.map_cons]
          rw [unwords_cons₂, ← List.map_cons, ih h']
          have h3 : (l :: l' :: wss').flatten = l ++ (l' :: wss').flatten :=
            rfl
          rw [h3, unwords_append_of_ne l (l' :: wss').flatten hl hfl]

/-- C10: for every input string, the greedy wrap loses no text —
splitting the space-join of the produced lines gives back exactly the
whitespace-separated words of the input in order — and any word wider
than `max_width` (under any measure that cannot shrink when a line is
extended) is still emitted alone on its own line rather than dropped. -/
theorem wrap_loses_no_text (m : List Char → ℤ) (maxW : ℤ) (s : List Char)
    (hsuf : ∀ l w, m (unwords [w]) ≤ m (unwords (l ++ [w])))
    (hext : ∀ l x, m (unwords l) ≤ m (unwords (l ++ [x]))) :
    pyWords (unwords (renderLines m maxW s)) = pyWords s ∧
    ∀ w ∈ pyWords s, maxW < m (unwords [w]) →
      [w] ∈ wrapWords m maxW (pyWords s) := by
  constructor
  · have hno : [] ∉ wrapWords m maxW (pyWords s) :=
      wrapAux_no_empty_line m maxW (pyWords s) []
    have hflat : (wrapWords m maxW (pyWords s)).flatten = pyWords s := by
      simpa [wrapWords] using wrapAux_flatten m maxW (pyWords s) []
    rw [renderLines, unwords_map_unwords _ hno, hflat]
    exact pyWords_unwords (pyWords s) (pyWords_wellformed s)
  · intro w hw hwide
    exact wrapAux_wide_word_alone m maxW hsuf hext (pyWords s) [] w hw hwide

-- ── The C7 font measure is extension-monotone ──

theorem wordsAux_append_space (y : List Char) :
    ∀ x cur, wordsAux (x ++ ' ' :: y) cur = wordsAux x cur ++ wordsAux y [] := by
  intro x
  induction x with
  | nil =>
      intro cur
      by_cases hc : cur.isEmpty
      · rw [List.nil_append, wordsAux, wordsAux, hc]
        simp [isSpaceChar]
      · rw [List.nil_append,
          wordsAux_space_cons y cur (by simpa [List.isEmpty_iff] using hc),
          wordsAux, Bool.of_not_eq_true hc]
        simp
  | cons c x ih =>
      intro cur
      rw [List.cons_append, wordsAux, wordsAux]
      by_cases hc : isSpaceChar c
      · rw [hc]
        simp only [if_true]
        by_cases hcur : cur.isEmpty
        · rw [hcur]; simp only [if_true]; exact ih []
        · rw [Bool.of_not_eq_true hcur]
          simp only [Bool.false_eq_true, if_false]
          rw [ih []]
          simp
      · rw [Bool.of_not_eq_true hc]
        simp only [Bool.false_eq_true, if_false]
        exact ih (c :: cur)

theorem pyWords_append_space (x y : List Char) :
    pyWords (x ++ ' ' :: y) = pyWords x ++ pyWords y :=
  wordsAux_append_space y x []

theorem pyWords_unwords_length (L : List (List Char)) :
    (pyWords (unwords L)).length =
      (L.map fun x => (pyWords x).length).sum := by
  induction L with
  | nil => rfl
  | cons a L ih =>
      cases L with
      | nil => simp [unwords_singleton]
      | cons b t =>
          rw [unwords_cons₂, pyWords_append_space, List.length_append, ih]
          simp

theorem measureC7_suffix_mono (l : List (List Char)) (w : List Char) :
    measureC7 (unwords [w]) ≤ measureC7 (unwords (l ++ [w])) := by
  unfold measureC7
  rw [pyWords_unwords_length, pyWords_unwords_length, List.map_append,
    List.sum_append]
  simp only [List.map_cons, List.map_nil, List.sum_cons, List.sum_nil]
  omega

theorem measureC7_ext_mono (l : List (List Char)) (x : List Char) :
    measureC7 (unwords l) ≤ measureC7 (unwords (l ++ [x])) := by
  unfold measureC7
  rw [pyWords_unwords_length, pyWords_unwords_length, List.map_append,
    List.sum_append]
  omega

theorem wrap_loses_no_text_witness :
    ((∀ l w, measureC7 (unwords [w]) ≤ measureC7 (unwords (l ++ [w]))) ∧
     (∀ l x, measureC7 (unwords l) ≤ measureC7 (unwords (l ++ [x])))) ∧
    (pyWords (unwords (renderLines measureC7 50 "hi x".data)) =
      pyWords "hi x".data ∧
     ∀ w ∈ pyWords "hi x".data, (50 : ℤ) < measureC7 (unwords [w]) →
       [w] ∈ wrapWords measureC7 50 (pyWords "hi x".data)) :=
  ⟨⟨measureC7_suffix_mono, measureC7_ext_mono⟩,
    wrap_loses_no_text measureC7 50 "hi x".data measureC7_suffix_mono
      measureC7_ext_mono⟩

/-- C7 counterexample: with `max_width = 700` and the 100 px-per-word /
10 px-spacing font, the greedy wrap packs 6 words on the first line (6
words measure 650 ≤ 700; 7 would measure 760), so 8 words give lines of
6 and 2 — not two lines of 4. -/
theorem wrap_c7_not_four_four :
    (wrapWords measureC7 700 (pyWords "a b c d e f g h".data)).map
        List.length = [6, 2] ∧
    (wrapWords measureC7 700 (pyWords "a b c d e f g h".data)).map
        List.length ≠ [4, 4] := by
  constructor <;> decide

/-- C7 (amended): with `max_width = 700` and the 100 px-per-word /
10 px-spacing font, the greedy wrap of 8 words produces exactly 2 lines,
of 6 and 2 words, breaking a line whenever adding the next word would
push the measured width past `max_width`. -/
theorem wrap_c7_lines :
    wrapWords measureC7 700 (pyWords "a b c d e f g h".data) =
      [[['a'], ['b'], ['c'], ['d'], ['e'], ['f']], [['g'], ['h']]] := by
  decide

-- ── Length lemmas for the assembly control flow ──

theorem sceneSlotsAux_length (durations : List ℚ) :
    ∀ n j c, (sceneSlotsAux n j c durations).length = durations.length := by
  induction durations with
  | nil => intro n j c; rfl
  | cons d rest ih =>
      intro n j c
      rw [sceneSlotsAux]
      simp [ih]

theorem buildSceneSlots_length (durations : List ℚ) :
    (buildSceneSlots durations).length = durations.length :=
  sceneSlotsAux_length durations durations.length 0 0

theorem resolveImageDurations_length (numImages : ℕ) (audioDuration : ℚ)
    (sceneTiming : Option (List ℚ)) :
    (resolveImageDurations numImages audioDuration sceneTiming).length =
      numImages := by
  match sceneTiming with
  | none => simp [resolveImageDurations, equalFallback]
  | some timing =>
      by_cases h : validTiming numImages (some timing) = true
      · have hlen : timing.length = numImages := by
          simp only [validTiming, Bool.and_eq_true, beq_iff_eq] at h
          exact h.1.2
        simp [resolveImageDurations, h, hlen]
      · simp [resolveImageDurations, h, equalFallback]

/-- C8 counterexample: a run whose caption list is non-empty but filters
to zero clips (here one chunk whose text is whitespace only) is not
aborted — the video is still rendered, with zero caption overlays. -/
theorem assemble_renders_with_zero_captions :
    assembleVideo ⟨some 30, [0], [⟨"   ".data, 0, 5⟩], none⟩ =
      AssembleOutcome.rendered 1 0 ∧
    buildCaptionClips [⟨"   ".data, 0, 5⟩] 30 = [] ∧
    AssembleOutcome.rendered 1 0 ≠ AssembleOutcome.audioFailure ∧
    AssembleOutcome.rendered 1 0 ≠ AssembleOutcome.noImages := by
  have hstrip : pyStrip "   ".data = [] := by decide
  have hcap : buildCaptionClips [(⟨"   ".data, 0, 5⟩ : CaptionChunk)] 30 =
      [] := by
    rw [buildCaptionClips, if_pos (Or.inr hstrip)]
    rfl
  refine ⟨?_, hcap, by simp, by simp⟩
  show AssembleOutcome.rendered
      (buildSceneSlots (resolveImageDurations 1 30 none)).length
      (buildCaptionClips [⟨"   ".data, 0, 5⟩] 30).length =
    AssembleOutcome.rendered 1 0
  rw [hcap, buildSceneSlots_length, resolveImageDurations_length]
  rfl

/-- C8 (amended): missing/unreadable audio and an empty image list abort
the assembly before any rendering; a caption list that filters to empty
does not abort — the assembly proceeds and renders with zero caption
overlays. -/
theorem assemble_abort_conditions (inp : AssemblyInput) :
    (inp.audio = none → assembleVideo inp = AssembleOutcome.audioFailure) ∧
    (∀ d, inp.audio = some d → inp.images = [] →
      assembleVideo inp = AssembleOutcome.noImages) ∧
    (∀ d, inp.audio = some d → inp.images ≠ [] →
      assembleVideo inp =
        AssembleOutcome.rendered inp.images.length
          (buildCaptionClips inp.chunks d).length) := by
  obtain ⟨audio, images, chunks, st⟩ := inp
  refine ⟨?_, ?_, ?_⟩
  · rintro rfl; rfl
  · rintro d rfl rfl; rfl
  · rintro d rfl hne
    have hempty : images.isEmpty = false := by
      simpa [List.isEmpty_iff] using hne
    show (if images.isEmpty then AssembleOutcome.noImages else _) = _
    rw [hempty]
    simp only [Bool.false_eq_true, if_false]
    rw [buildSceneSlots_length, resolveImageDurations_length]

theorem assemble_abort_conditions_witness :
    (((⟨none, [], [], none⟩ : AssemblyInput).audio = none) ∧
      ((⟨some 30, [], [], none⟩ : AssemblyInput).audio = some 30) ∧
      ((⟨some 30, [0], [], none⟩ : AssemblyInput).images ≠ [])) ∧
    (assembleVideo ⟨none, [], [], none⟩ = AssembleOutcome.audioFailure ∧
     assembleVideo ⟨some 30, [], [], none⟩ = AssembleOutcome.noImages ∧
     assembleVideo ⟨some 30, [0], [], none⟩ =
       AssembleOutcome.rendered 1 (buildCaptionClips [] 30).length) :=
  ⟨⟨rfl, rfl, by simp⟩,
   (assemble_abort_conditions ⟨none, [], [], none⟩).1 rfl,
   (assemble_abort_conditions ⟨some 30, [], [], none⟩).2.1 30 rfl rfl,
   (assemble_abort_conditions ⟨some 30, [0], [], none⟩).2.2 30 rfl (by simp)⟩

end Assembly
